import Mathlib

/-!
Verification of the issuedash report generator.

This file shallowly embeds the program's data model and its
classification/aggregation/ordering pipeline, translated from the Go
sources:

* `main.go` — Markdown renderer whose `printIssues` buckets an issue once
  per `"component: "` label (modelled below by `printIssuesParse`);
* the richer HTML variant (`parseIssues` with type/estimate extraction and
  day accumulation), modelled below by `parseIssues`;
* the shared `issues.Less` / `components.Less` comparators, the
  `writeIssues`/`readIssues` cache serialization, and `run`'s repo-flag
  splitting.

Go strings are modelled as Lean `String`s (the recognized prefixes are
ASCII, so Go's byte slicing `lbl[11:]` coincides with `String.drop 11`
once the prefix check has succeeded); Go `int` counters that are only
ever incremented are modelled as `Nat`, and the signed day estimates as
`Int`.  `sort.Sort(x)` with comparator `Less` is modelled as
`List.insertionSort` over the reflexive closure `fun a b => ¬ Less b a`:
Go's sort guarantees exactly that the result is a permutation of the
input that is `Sorted` with respect to that relation.
-/

/-- The type `github.User` as used by the program: only the profile and avatar
URLs of an assignee are ever read. -/
structure GhUser where
  htmlURL : String
  avatarURL : String
deriving DecidableEq, Repr

/-- The type `github.Milestone` as used by the program: the grouping title and the
milestone's HTML URL. -/
structure GhMilestone where
  title : String
  htmlURL : String
deriving DecidableEq, Repr

/-- The type `github.Issue` restricted to the fields the program reads.  A label is
modelled by its name (go-github's `Label.String()` returns the name). -/
structure GhIssue where
  number : Int
  title : String
  htmlURL : String
  milestone : Option GhMilestone
  labels : List String
  assignee : Option GhUser
  closedAt : Option String
deriving DecidableEq, Repr

/-- The richer variant's `issue` wrapper: a fetched issue together with the
derived `Type` tag and `Days` estimate. -/
structure RIssue where
  issue : GhIssue
  type : String
  days : Int
deriving DecidableEq, Repr

/-- The `Stats` sub-struct of `milestone`/`component` in the richer
variant: `Closed`, `Total`, `Days`. -/
structure Stats where
  closed : Nat
  total : Nat
  days : Int
deriving DecidableEq, Repr

/-- The richer variant's `component` record. -/
structure Component where
  name : String
  issues : List RIssue
  stats : Stats
deriving DecidableEq, Repr

/-- The richer variant's `milestone` record.  The Go struct embeds
`*github.Milestone`; here it is an explicit field. -/
structure Milestone where
  milestone : GhMilestone
  components : List Component
  stats : Stats
deriving DecidableEq, Repr

/-- The title `ms.Title`, promoted from the embedded `github.Milestone`. -/
def Milestone.title (m : Milestone) : String := m.milestone.title

/-- Model of `strings.HasPrefix`, computed on the underlying character lists
(`String` is a wrapper around `List Char`; the recognized prefixes are
ASCII, so Go's byte comparison coincides with character comparison). -/
def startsWithStr (p s : String) : Bool := p.data.isPrefixOf s.data

/-- Model of `lbl[n:]` for a string whose first `n` bytes are ASCII: drop the
first `n` characters. -/
def dropStr (s : String) (n : Nat) : String := ⟨s.data.drop n⟩

/-- Model of `strings.HasSuffix`, on the underlying character lists. -/
def endsWithStr (s suf : String) : Bool := suf.data.isSuffixOf s.data

/-- Model of `str[:len(str)-n]` for an ASCII tail: drop the last `n`
characters. -/
def dropRightStr (s : String) (n : Nat) : String := ⟨s.data.take (s.data.length - n)⟩

/-- The whitespace recognized by `strings.TrimSpace` on the ASCII label
content this program handles. -/
def isSpaceChar (c : Char) : Bool := c == ' ' || c == '\t' || c == '\n' || c == '\r'

/-- Model of `strings.TrimSpace`: strip leading and trailing whitespace. -/
def trimStr (s : String) : String :=
  ⟨((s.data.dropWhile isSpaceChar).reverse.dropWhile isSpaceChar).reverse⟩

/-- Value of a string of decimal digits. -/
def digitsVal (cs : List Char) : Nat :=
  cs.foldl (fun acc c => acc * 10 + (c.toNat - 48)) 0

/-- Model of `strconv.Atoi`, with the error result collapsed to `0` exactly as the
caller `num, _ := strconv.Atoi(...)` does: an optional sign followed by at
least one digit parses to its value, anything else yields `0`. -/
def atoi (s : String) : Int :=
  match s.toList with
  | [] => 0
  | '+' :: rest =>
    if rest ≠ [] ∧ rest.all Char.isDigit then (digitsVal rest : Int) else 0
  | '-' :: rest =>
    if rest ≠ [] ∧ rest.all Char.isDigit then -(digitsVal rest : Int) else 0
  | cs => if cs.all Char.isDigit then (digitsVal cs : Int) else 0

/-- The contribution of one label to the issue's day estimate: the body of
the `"estimate: "` branch of the richer variant's label loop. -/
def estimDelta (lbl : String) : Int :=
  if startsWithStr "estimate: " lbl then
    let str := trimStr (dropStr lbl 10)
    let m : Int := if endsWithStr str "d" then 1 else if endsWithStr str "w" then 5 else 0
    if m > 0 then
      let num := atoi (dropRightStr str 1)
      if num > 0 then m * num else 0
    else 0
  else 0

/-- One iteration of the richer variant's label loop, acting on the
`(cmpName, typeName, days)` accumulator. -/
def scanStep (acc : String × String × Int) (lbl : String) : String × String × Int :=
  (if startsWithStr "component: " lbl then dropStr lbl 11 else acc.1,
   if startsWithStr "type: " lbl then dropStr lbl 6 else acc.2.1,
   acc.2.2 + estimDelta lbl)

/-- The richer variant's label loop: starting from `("", "", 0)`, the last
`"component: "` label wins, the last `"type: "` label wins, and estimate
contributions accumulate. -/
def scanLabels (labels : List String) : String × String × Int :=
  labels.foldl scanStep ("", "", 0)

/-- The component name the label loop leaves in `cmpName`. -/
def cmpNameOf (labels : List String) : String := (scanLabels labels).1

/-- The type tag the label loop leaves in `typeName`. -/
def typeNameOf (labels : List String) : String := (scanLabels labels).2.1

/-- The day estimate the label loop leaves in `days`. -/
def daysOf (labels : List String) : Int := (scanLabels labels).2.2

/-- A fresh `component` record, as allocated on first encounter. -/
def newComponent (n : String) : Component :=
  { name := n, issues := [], stats := ⟨0, 0, 0⟩ }

/-- The per-issue update of the matched component: append the wrapped
issue, bump `Total`, and bump `Closed` or `Days` depending on
`ClosedAt`. -/
def bumpComponent (g : GhIssue) (ty : String) (d : Int) (c : Component) : Component :=
  { c with
    issues := c.issues ++ [⟨g, ty, d⟩],
    stats :=
      { closed := if g.closedAt.isSome then c.stats.closed + 1 else c.stats.closed,
        total := c.stats.total + 1,
        days := if g.closedAt.isSome then c.stats.days else c.stats.days + d } }

/-- The `msCmpMap[ms]` lookup-or-create followed by the component update:
an existing component named `n` is updated in place, otherwise a fresh
one is appended (Go appends the new component to `ms.Components`). -/
def updComponents (cs : List Component) (n : String) (g : GhIssue) (ty : String)
    (d : Int) : List Component :=
  if cs.any (fun c => c.name == n) then
    cs.map (fun c => if c.name == n then bumpComponent g ty d c else c)
  else cs ++ [bumpComponent g ty d (newComponent n)]

/-- The per-issue update of the milestone bucket: bump `Total` and
`Closed`/`Days`, then update the component map when a component label was
present (`cmpName ≠ ""`). -/
def bumpMilestone (g : GhIssue) (cn ty : String) (d : Int) (m : Milestone) : Milestone :=
  let st : Stats :=
    { closed := if g.closedAt.isSome then m.stats.closed + 1 else m.stats.closed,
      total := m.stats.total + 1,
      days := if g.closedAt.isSome then m.stats.days else m.stats.days + d }
  if cn ≠ "" then
    { m with stats := st, components := updComponents m.components cn g ty d }
  else
    { m with stats := st }

/-- A fresh `milestone` record keyed by the issue's milestone. -/
def newMilestone (gm : GhMilestone) : Milestone :=
  { milestone := gm, components := [], stats := ⟨0, 0, 0⟩ }

/-- One iteration of the richer variant's issue loop: skip issues with no
milestone, scan the labels, then update (or create) the milestone bucket
keyed by the milestone title. -/
def addIssue (st : List Milestone) (g : GhIssue) : List Milestone :=
  match g.milestone with
  | none => st
  | some gm =>
    let cn := cmpNameOf g.labels
    let ty := typeNameOf g.labels
    let d := daysOf g.labels
    if st.any (fun m => m.title == gm.title) then
      st.map (fun m => if m.title == gm.title then bumpMilestone g cn ty d m else m)
    else st ++ [bumpMilestone g cn ty d (newMilestone gm)]

/-- The issue loop of the richer variant's `parseIssues`, before the final
sorting pass.  The Go `msMap` is modelled as a list of buckets with
pairwise distinct titles, in first-encounter order. -/
def parseIssuesCore (issues : List GhIssue) : List Milestone :=
  issues.foldl addIssue []

/-- The comparator `issues.Less` / `Issues.Less`: open before closed, then unassigned
before assigned, then ascending issue number. -/
def issueLess (a b : GhIssue) : Bool :=
  let iClosed := a.closedAt.isSome
  let jClosed := b.closedAt.isSome
  let iAssigned := a.assignee.isSome
  let jAssigned := b.assignee.isSome
  if iClosed == jClosed then
    if iAssigned == jAssigned then decide (a.number < b.number)
    else !iAssigned
  else !iClosed

/-- The sortedness relation `sort.Sort` establishes for the issue
comparator: `a` may precede `b` when `¬ Less(b, a)`. -/
def issuesLe (a b : RIssue) : Prop := issueLess b.issue a.issue = false

instance : DecidableRel issuesLe := fun a b => by
  unfold issuesLe; infer_instance

/-- The sortedness relation `sort.Sort` establishes for the component
comparator `sl[i].Name < sl[j].Name`. -/
def componentsLe (a b : Component) : Prop := ¬ b.name < a.name

instance : DecidableRel componentsLe := fun a b => by
  unfold componentsLe; infer_instance

/-- Model of `sort.Sort(cmp.Issues)`. -/
def sortIssues (l : List RIssue) : List RIssue := List.insertionSort issuesLe l

/-- Model of `sort.Sort(ms.Components)`. -/
def sortComponents (l : List Component) : List Component :=
  List.insertionSort componentsLe l

/-- The final pass of `parseIssues`: sort each component's issue list,
then sort the component list by name. -/
def finalizeMilestone (m : Milestone) : Milestone :=
  { m with
    components := sortComponents (m.components.map fun c => { c with issues := sortIssues c.issues }) }

/-- The richer variant's `parseIssues`: bucket every issue, then sort all
component and issue lists. -/
def parseIssues (issues : List GhIssue) : List Milestone :=
  (parseIssuesCore issues).map finalizeMilestone

/-- The milestone-selection loop of `printIssues`: walk the requested
names in order and keep the buckets that exist, silently skipping absent
names. -/
def selectMilestones (msMap : List Milestone) : List String → List Milestone
  | [] => []
  | n :: rest =>
    match msMap.find? (fun m => m.title == n) with
    | some m => m :: selectMilestones msMap rest
    | none => selectMilestones msMap rest

/-- A milestone bucket of `main.go`'s `printIssues`: the `msCounts` open
and closed counters, the milestone URL, and the `parsed[title]` map from
component name to issue list (modelled as an association list in
first-encounter order; `main.go` sorts the keys only for display). -/
structure MsBucket where
  url : String
  openCount : Nat
  closedCount : Nat
  comps : List (String × List GhIssue)
deriving DecidableEq, Repr

/-- The update `parsed[*ms.Title][lbl[11:]] = append(..., issues[i])`: append the
issue to the named component's list, creating the entry if absent. -/
def updCompBucket (cs : List (String × List GhIssue)) (n : String) (g : GhIssue) :
    List (String × List GhIssue) :=
  if cs.any (fun c => c.1 == n) then
    cs.map (fun c => if c.1 == n then (c.1, c.2 ++ [g]) else c)
  else cs ++ [(n, [g])]

/-- One iteration of `main.go`'s label loop: every `"component: "` label
causes an append. -/
def addLabelMain (g : GhIssue) (cs : List (String × List GhIssue)) (lbl : String) :
    List (String × List GhIssue) :=
  if startsWithStr "component: " lbl then updCompBucket cs (dropStr lbl 11) g else cs

/-- The per-issue update of a `main.go` milestone bucket: bump the
open/closed counter, then run the label loop. -/
def bumpBucket (g : GhIssue) (b : MsBucket) : MsBucket :=
  let b :=
    if g.closedAt.isSome then { b with closedCount := b.closedCount + 1 }
    else { b with openCount := b.openCount + 1 }
  { b with comps := g.labels.foldl (addLabelMain g) b.comps }

/-- One iteration of `main.go`'s issue loop (`printIssues` lines 117-143). -/
def addIssueMain (st : List (String × MsBucket)) (g : GhIssue) :
    List (String × MsBucket) :=
  match g.milestone with
  | none => st
  | some gm =>
    if st.any (fun p => p.1 == gm.title) then
      st.map (fun p => if p.1 == gm.title then (p.1, bumpBucket g p.2) else p)
    else st ++ [(gm.title, bumpBucket g ⟨gm.htmlURL, 0, 0, []⟩)]

/-- The parsing phase of `main.go`'s `printIssues`: bucket all issues by
milestone title and, per `"component: "` label, by component name. -/
def printIssuesParse (issues : List GhIssue) : List (String × MsBucket) :=
  issues.foldl addIssueMain []

/-- JSON values, the structural content `encoding/json` serializes; the
textual byte layer is the external library's concern and is lossless for
these values. -/
inductive JVal where
  | jnull : JVal
  | jstr : String → JVal
  | jnum : Int → JVal
  | jarr : List JVal → JVal
  | jobj : List (String × JVal) → JVal

/-- Marshalling of an assignee. -/
def encodeUser (u : GhUser) : JVal :=
  .jobj [("html_url", .jstr u.htmlURL), ("avatar_url", .jstr u.avatarURL)]

/-- Marshalling of a milestone reference. -/
def encodeMs (m : GhMilestone) : JVal :=
  .jobj [("title", .jstr m.title), ("html_url", .jstr m.htmlURL)]

/-- Marshalling of an issue: the always-present fields followed by the
optional pointer fields, omitted when nil (`omitempty`). -/
def encodeIssue (g : GhIssue) : JVal :=
  .jobj
    ([("number", .jnum g.number), ("title", .jstr g.title),
      ("html_url", .jstr g.htmlURL), ("labels", .jarr (g.labels.map JVal.jstr))] ++
      (match g.milestone with | some m => [("milestone", encodeMs m)] | none => []) ++
      (match g.assignee with | some u => [("assignee", encodeUser u)] | none => []) ++
      (match g.closedAt with | some t => [("closed_at", .jstr t)] | none => []))

/-- Model of `json.Marshal(issues)` for the flat issue list. -/
def encodeIssues (issues : List GhIssue) : JVal :=
  .jarr (issues.map encodeIssue)

/-- Object-field lookup. -/
def jlookup (fs : List (String × JVal)) (k : String) : Option JVal :=
  (fs.find? (fun p => p.1 == k)).map (·.2)

/-- Expect a JSON string. -/
def asStr : JVal → Option String
  | .jstr s => some s
  | _ => none

/-- Expect a JSON number. -/
def asNum : JVal → Option Int
  | .jnum n => some n
  | _ => none

/-- Unmarshalling of an assignee. -/
def decodeUser : JVal → Option GhUser
  | .jobj fs => do
    let h ← jlookup fs "html_url" >>= asStr
    let a ← jlookup fs "avatar_url" >>= asStr
    pure ⟨h, a⟩
  | _ => none

/-- Unmarshalling of a milestone reference. -/
def decodeMs : JVal → Option GhMilestone
  | .jobj fs => do
    let t ← jlookup fs "title" >>= asStr
    let h ← jlookup fs "html_url" >>= asStr
    pure ⟨t, h⟩
  | _ => none

/-- Unmarshalling of a string array, element by element. -/
def decodeStrList : List JVal → Option (List String)
  | [] => some []
  | v :: vs => do
    let s ← asStr v
    let rest ← decodeStrList vs
    pure (s :: rest)

/-- Unmarshalling of a label array. -/
def decodeLabels : JVal → Option (List String)
  | .jarr vs => decodeStrList vs
  | _ => none

/-- Unmarshalling of an optional (omitempty) field: an absent key is a nil
pointer, a present key must decode. -/
def decodeOpt (dec : JVal → Option β) : Option JVal → Option (Option β)
  | none => some none
  | some v => (dec v).map some

/-- Unmarshalling of an issue. -/
def decodeIssue : JVal → Option GhIssue
  | .jobj fs => do
    let n ← jlookup fs "number" >>= asNum
    let t ← jlookup fs "title" >>= asStr
    let u ← jlookup fs "html_url" >>= asStr
    let lv ← jlookup fs "labels"
    let lbls ← decodeLabels lv
    let ms ← decodeOpt decodeMs (jlookup fs "milestone")
    let asg ← decodeOpt decodeUser (jlookup fs "assignee")
    let ca ← decodeOpt asStr (jlookup fs "closed_at")
    pure ⟨n, t, u, ms, lbls, asg, ca⟩
  | _ => none

/-- Unmarshalling of an issue array, element by element. -/
def decodeIssueList : List JVal → Option (List GhIssue)
  | [] => some []
  | v :: vs => do
    let g ← decodeIssue v
    let rest ← decodeIssueList vs
    pure (g :: rest)

/-- Model of `json.Unmarshal(b, &issues)` for the flat issue list. -/
def decodeIssues : JVal → Option (List GhIssue)
  | .jarr vs => decodeIssueList vs
  | _ => none

/-- The file system seen by the cache loader/writer: a map from path to
stored content. -/
def Store := String → Option JVal

/-- Model of `writeIssues` (`Save`): marshal the flat list and write it at the
given path. -/
def writeIssuesModel (st : Store) (path : String) (issues : List GhIssue) : Store :=
  fun p => if p == path then some (encodeIssues issues) else st p

/-- Model of `readIssues` (`Load`): read the file and unmarshal; `none` models the
IO/format error path. -/
def readIssuesModel (st : Store) (path : String) : Option (List GhIssue) :=
  (st path).bind decodeIssues

/-- The first `"/"`-split of a character string: `none` when the
separator does not occur. -/
def splitFirst : List Char → Option (List Char × List Char)
  | [] => none
  | c :: cs =>
    if c = '/' then some ([], cs)
    else (splitFirst cs).map (fun p => (c :: p.1, p.2))

/-- Model of `strings.SplitN(repo, "/", 2)`: at most two parts, split at the first
separator. -/
def splitN2 (s : List Char) : List (List Char) :=
  match splitFirst s with
  | none => [s]
  | some (a, b) => [a, b]

/-- The observable outcomes of `run`'s input-selection step. -/
inductive RunOutcome where
  | ok : RunOutcome
  | crash : RunOutcome
  | inputError : RunOutcome
deriving DecidableEq, Repr

/-- The repo-flag handling of `run`: with no from-file flag the code
indexes `repoParts[0]` and `repoParts[1]` unguarded, so a missing part is
an out-of-bounds panic (`crash`), never a clean `InputError`. -/
def runRepoSelect (fromFile : String) (repo : List Char) : RunOutcome :=
  if fromFile ≠ "" then .ok
  else
    match (splitN2 repo).get? 0, (splitN2 repo).get? 1 with
    | some _, some _ => .ok
    | _, _ => .crash

/-- The tail of `run` after the issue list has been obtained: render
(`printIssues`, whose output is determined by the selected aggregate) and
then, when the write-issues flag is set, write the cache file from the
same flat `issues` variable.  The aggregation is a pure function of the
list — `parseIssues` never assigns through the input slice — so the list
passed to `writeIssues` is the list as fetched or loaded. -/
def runPipe (issues : List GhIssue) (names : List String) (outPath : String)
    (st : Store) : List Milestone × Store :=
  let rendered := selectMilestones (parseIssues issues) names
  let st' := if outPath ≠ "" then writeIssuesModel st outPath issues else st
  (rendered, st')

/-- Attribution of an issue to the milestone titled `t`: the issue has a
milestone reference with that title.  An issue lacking a milestone
reference is attributed to no milestone. -/
def attrMs (t : String) (g : GhIssue) : Bool :=
  match g.milestone with
  | none => false
  | some gm => gm.title == t

/-- Whether the issue carries a closed timestamp. -/
def isClosedB (g : GhIssue) : Bool := g.closedAt.isSome

/-- Attribution of an issue to component `c` of milestone `t` in the
richer variant: milestone title `t`, last component label `c`, and `c`
nonempty (the code only buckets when `cmpName != ""`). -/
def attrCmp (t c : String) (g : GhIssue) : Bool :=
  attrMs t g && (cmpNameOf g.labels == c) && !(c == "")

/-- The wrapped issue the richer variant appends to a component list. -/
def mkRIssue (g : GhIssue) : RIssue :=
  ⟨g, typeNameOf g.labels, daysOf g.labels⟩

/-- Day estimates of the open issues among `l` satisfying `p`. -/
def openDays (p : GhIssue → Bool) (l : List GhIssue) : Int :=
  ((l.filter fun g => p g && !isClosedB g).map fun g => daysOf g.labels).sum

/-- Loop invariant of `parseIssuesCore` for one component bucket of the
milestone titled `t`, after the issues `l` have been processed. -/
def CmpInv (l : List GhIssue) (t : String) (c : Component) : Prop :=
  c.name ≠ "" ∧
  c.stats.total = l.countP (attrCmp t c.name) ∧
  c.stats.closed = l.countP (fun g => attrCmp t c.name g && isClosedB g) ∧
  c.stats.days = openDays (attrCmp t c.name) l ∧
  c.issues = (l.filter (attrCmp t c.name)).map mkRIssue

/-- Loop invariant of `parseIssuesCore` for one milestone bucket. -/
def MsInv (l : List GhIssue) (m : Milestone) : Prop :=
  m.stats.total = l.countP (attrMs m.title) ∧
  m.stats.closed = l.countP (fun g => attrMs m.title g && isClosedB g) ∧
  m.stats.days = openDays (attrMs m.title) l ∧
  (m.components.map Component.name).Nodup ∧
  (∀ c ∈ m.components, CmpInv l m.title c) ∧
  (∀ n : String, n ∈ m.components.map Component.name ↔ 0 < l.countP (attrCmp m.title n))

/-- Loop invariant of `parseIssuesCore` for the whole milestone map. -/
def StInv (l : List GhIssue) (st : List Milestone) : Prop :=
  (st.map Milestone.title).Nodup ∧
  (∀ m ∈ st, MsInv l m) ∧
  (∀ t : String, t ∈ st.map Milestone.title ↔ 0 < l.countP (attrMs t))

theorem bumpComponent_name (g : GhIssue) (ty : String) (d : Int) (c : Component) :
    (bumpComponent g ty d c).name = c.name := rfl

theorem bumpMilestone_title (g : GhIssue) (cn ty : String) (d : Int) (m : Milestone) :
    (bumpMilestone g cn ty d m).title = m.title := by
  unfold bumpMilestone Milestone.title
  by_cases h : cn ≠ "" <;> simp [h]

theorem attrMs_of_none {g : GhIssue} (h : g.milestone = none) (t : String) :
    attrMs t g = false := by
  simp [attrMs, h]

theorem attrCmp_eq_false_of_attrMs {t c : String} {g : GhIssue}
    (h : attrMs t g = false) : attrCmp t c g = false := by
  simp [attrCmp, h]

theorem attrMs_of_some {g : GhIssue} {gm : GhMilestone}
    (h : g.milestone = some gm) (t : String) :
    attrMs t g = (gm.title == t) := by
  simp [attrMs, h]

/-- Appending an issue that does not satisfy `p` changes neither count nor
filter. -/
theorem countP_append_false {p : GhIssue → Bool} {g : GhIssue}
    (h : p g = false) (l : List GhIssue) :
    (l ++ [g]).countP p = l.countP p := by
  simp [List.countP_append, List.countP_singleton, h]

theorem countP_append_true {p : GhIssue → Bool} {g : GhIssue}
    (h : p g = true) (l : List GhIssue) :
    (l ++ [g]).countP p = l.countP p + 1 := by
  simp [List.countP_append, List.countP_singleton, h]

theorem filter_append_false {p : GhIssue → Bool} {g : GhIssue}
    (h : p g = false) (l : List GhIssue) :
    (l ++ [g]).filter p = l.filter p := by
  simp [List.filter_append, h]

theorem filter_append_true {p : GhIssue → Bool} {g : GhIssue}
    (h : p g = true) (l : List GhIssue) :
    (l ++ [g]).filter p = l.filter p ++ [g] := by
  simp [List.filter_append, h]

theorem openDays_append_closed {p : GhIssue → Bool} {g : GhIssue}
    (h : isClosedB g = true) (l : List GhIssue) :
    openDays p (l ++ [g]) = openDays p l := by
  unfold openDays
  rw [filter_append_false (by simp [h])]

theorem openDays_append_false {p : GhIssue → Bool} {g : GhIssue}
    (h : p g = false) (l : List GhIssue) :
    openDays p (l ++ [g]) = openDays p l := by
  unfold openDays
  rw [filter_append_false (by simp [h])]

theorem openDays_append_open {p : GhIssue → Bool} {g : GhIssue}
    (hp : p g = true) (h : isClosedB g = false) (l : List GhIssue) :
    openDays p (l ++ [g]) = openDays p l + daysOf g.labels := by
  unfold openDays
  rw [filter_append_true (by simp [hp, h])]
  simp

theorem attrCmp_imp_attrMs {t c : String} {g : GhIssue}
    (h : attrCmp t c g = true) : attrMs t g = true := by
  simp [attrCmp] at h
  exact h.1.1

theorem countP_attrCmp_le (t c : String) (l : List GhIssue) :
    l.countP (attrCmp t c) ≤ l.countP (attrMs t) :=
  List.countP_mono_left fun _ _ h => attrCmp_imp_attrMs h

/-- An issue not attributed to a component bucket leaves its invariant
untouched. -/
theorem CmpInv_irrel {l : List GhIssue} {t : String} {c : Component} {g : GhIssue}
    (hc : CmpInv l t c) (h : attrCmp t c.name g = false) :
    CmpInv (l ++ [g]) t c := by
  obtain ⟨h0, h1, h2, h3, h4⟩ := hc
  refine ⟨h0, ?_, ?_, ?_, ?_⟩
  · rw [countP_append_false h]; exact h1
  · rw [countP_append_false (by simp [h])]; exact h2
  · rw [openDays_append_false h]; exact h3
  · rw [filter_append_false h]; exact h4

/-- The bumped component's invariant, for the issue attributed to it. -/
theorem CmpInv_bump {l : List GhIssue} {t : String} {c : Component} {g : GhIssue}
    (hc : CmpInv l t c) (hattr : attrCmp t c.name g = true) :
    CmpInv (l ++ [g]) t (bumpComponent g (typeNameOf g.labels) (daysOf g.labels) c) := by
  obtain ⟨h0, h1, h2, h3, h4⟩ := hc
  refine ⟨h0, ?_, ?_, ?_, ?_⟩
  · show c.stats.total + 1 = (l ++ [g]).countP (attrCmp t c.name)
    rw [countP_append_true hattr, h1]
  · show (if g.closedAt.isSome then c.stats.closed + 1 else c.stats.closed) =
      (l ++ [g]).countP (fun g => attrCmp t c.name g && isClosedB g)
    by_cases hcl : isClosedB g
    · rw [countP_append_true (by simp [hattr, hcl]), ← h2]
      simp [isClosedB] at hcl
      simp [hcl]
    · rw [countP_append_false (by simp [hattr]; simp_all [isClosedB]), ← h2]
      simp [isClosedB] at hcl
      simp [hcl]
  · show (if g.closedAt.isSome then c.stats.days else c.stats.days + daysOf g.labels) =
      openDays (attrCmp t c.name) (l ++ [g])
    by_cases hcl : isClosedB g
    · rw [openDays_append_closed hcl, ← h3]
      simp [isClosedB] at hcl
      simp [hcl]
    · rw [openDays_append_open hattr (by simpa using hcl), ← h3]
      simp [isClosedB] at hcl
      simp [hcl]
  · show c.issues ++ [⟨g, typeNameOf g.labels, daysOf g.labels⟩] =
      ((l ++ [g]).filter (attrCmp t c.name)).map mkRIssue
    rw [filter_append_true hattr, List.map_append, ← h4]
    rfl

theorem updComponents_names (cs : List Component) (n : String) (g : GhIssue)
    (ty : String) (d : Int) :
    (updComponents cs n g ty d).map Component.name =
      if cs.any (fun c => c.name == n) then cs.map Component.name
      else cs.map Component.name ++ [n] := by
  unfold updComponents
  by_cases h : cs.any (fun c => c.name == n)
  · simp only [h, if_true, List.map_map]
    exact List.map_congr_left fun c _ => by
      by_cases hcn : c.name = n <;> simp [hcn, bumpComponent_name]
  · simp only [h, if_false, Bool.false_eq_true, List.map_append]
    rfl

/-- The component-map update performed for an attributed issue preserves
the per-milestone component invariants. -/
theorem updComponents_inv {l : List GhIssue} {t : String} {cs : List Component}
    {g : GhIssue}
    (hnd : (cs.map Component.name).Nodup)
    (hinv : ∀ c ∈ cs, CmpInv l t c)
    (hiff : ∀ n : String, n ∈ cs.map Component.name ↔ 0 < l.countP (attrCmp t n))
    (hattr : attrCmp t (cmpNameOf g.labels) g = true) :
    ((updComponents cs (cmpNameOf g.labels) g (typeNameOf g.labels) (daysOf g.labels)).map
        Component.name).Nodup ∧
    (∀ c ∈ updComponents cs (cmpNameOf g.labels) g (typeNameOf g.labels) (daysOf g.labels),
        CmpInv (l ++ [g]) t c) ∧
    (∀ n : String,
        n ∈ (updComponents cs (cmpNameOf g.labels) g (typeNameOf g.labels)
              (daysOf g.labels)).map Component.name ↔
          0 < (l ++ [g]).countP (attrCmp t n)) := by
  set cn := cmpNameOf g.labels with hcn
  have hattr_ne : ∀ n : String, n ≠ cn → attrCmp t n g = false := by
    intro n hne
    simp only [attrCmp, ← hcn, Bool.and_eq_false_iff]
    left; right
    simp [beq_eq_false_iff_ne]
    exact fun h => hne h.symm
  by_cases hex : cs.any (fun c => c.name == cn)
  · -- the component already exists: map-update
    have hnames : (updComponents cs cn g (typeNameOf g.labels) (daysOf g.labels)).map
        Component.name = cs.map Component.name := by
      rw [updComponents_names, if_pos hex]
    have hcn_mem : cn ∈ cs.map Component.name := by
      simp only [List.any_eq_true] at hex
      obtain ⟨c, hc, hce⟩ := hex
      simp only [List.mem_map]
      exact ⟨c, hc, by simpa [beq_iff_eq] using hce⟩
    refine ⟨by rw [hnames]; exact hnd, ?_, ?_⟩
    · intro c' hc'
      unfold updComponents at hc'
      rw [if_pos hex] at hc'
      obtain ⟨c, hc, rfl⟩ := List.mem_map.1 hc'
      by_cases hceq : c.name = cn
      · simp only [hceq, beq_self_eq_true, if_true]
        exact CmpInv_bump (hinv c hc) (by rw [hceq]; exact hattr)
      · rw [if_neg (by simpa using hceq)]
        exact CmpInv_irrel (hinv c hc) (hattr_ne c.name hceq)
    · intro n
      rw [hnames]
      by_cases hne : n = cn
      · subst hne
        rw [countP_append_true hattr]
        exact ⟨fun _ => by omega, fun _ => hcn_mem⟩
      · rw [countP_append_false (hattr_ne n hne)]
        exact hiff n
  · -- fresh component appended
    have hnames : (updComponents cs cn g (typeNameOf g.labels) (daysOf g.labels)).map
        Component.name = cs.map Component.name ++ [cn] := by
      rw [updComponents_names, if_neg hex]
    have hcn_not : cn ∉ cs.map Component.name := by
      intro hmem
      apply hex
      simp only [List.mem_map] at hmem
      obtain ⟨c, hc, hce⟩ := hmem
      exact List.any_eq_true.2 ⟨c, hc, by simp [hce]⟩
    have hzero : l.countP (attrCmp t cn) = 0 := by
      by_contra hne0
      exact hcn_not ((hiff cn).2 (Nat.pos_of_ne_zero hne0))
    have hall : ∀ x ∈ l, attrCmp t cn x = false := by
      intro x hx
      have := List.countP_eq_zero.1 hzero x hx
      simpa using this
    refine ⟨?_, ?_, ?_⟩
    · rw [hnames]
      simp [List.nodup_append, hnd, List.disjoint_singleton, hcn_not]
    · intro c' hc'
      unfold updComponents at hc'
      rw [if_neg hex] at hc'
      rw [List.mem_append] at hc'
      rcases hc' with hc' | hc'
      · have hcne : c'.name ≠ cn := by
          intro heq
          exact hcn_not (heq ▸ List.mem_map_of_mem Component.name hc')
        exact CmpInv_irrel (hinv c' hc') (hattr_ne c'.name hcne)
      · rw [List.mem_singleton] at hc'
        subst hc'
        have hcn_ne : cn ≠ "" := by
          simp only [attrCmp, ← hcn, Bool.and_eq_true] at hattr
          simpa using hattr.2
        refine ⟨by simpa [bumpComponent_name, newComponent] using hcn_ne, ?_, ?_, ?_, ?_⟩
        · show 0 + 1 = (l ++ [g]).countP (attrCmp t cn)
          rw [countP_append_true hattr, hzero]
        · show (if g.closedAt.isSome then 0 + 1 else 0) =
            (l ++ [g]).countP (fun x => attrCmp t cn x && isClosedB x)
          have h0 : l.countP (fun x => attrCmp t cn x && isClosedB x) = 0 :=
            List.countP_eq_zero.2 fun x hx => by simp [hall x hx]
          by_cases hcl : isClosedB g
          · rw [countP_append_true (by simp [hattr, hcl]), h0]
            simp [isClosedB] at hcl
            simp [hcl]
          · rw [countP_append_false (by simp [hattr]; simp_all [isClosedB]), h0]
            simp [isClosedB] at hcl
            simp [hcl]
        · show (if g.closedAt.isSome then (0 : Int) else 0 + daysOf g.labels) =
            openDays (attrCmp t cn) (l ++ [g])
          have h0 : openDays (attrCmp t cn) l = 0 := by
            unfold openDays
            rw [List.filter_eq_nil_iff.2 fun x hx => by simp [hall x hx]]
            rfl
          by_cases hcl : isClosedB g
          · rw [openDays_append_closed hcl, h0]
            simp [isClosedB] at hcl
            simp [hcl]
          · rw [openDays_append_open hattr (by simpa using hcl), h0]
            simp [isClosedB] at hcl
            simp [hcl]
        · show [(⟨g, typeNameOf g.labels, daysOf g.labels⟩ : RIssue)] =
            ((l ++ [g]).filter (attrCmp t cn)).map mkRIssue
          rw [filter_append_true hattr,
            List.filter_eq_nil_iff.2 fun x hx => by simp [hall x hx]]
          rfl
    · intro n
      rw [hnames]
      by_cases hne : n = cn
      · subst hne
        simp only [countP_append_true hattr]
        simp
      · rw [countP_append_false (hattr_ne n hne), List.mem_append]
        simp only [List.mem_singleton, hne, or_false]
        exact hiff n

/-- An issue not attributed to a milestone bucket leaves its invariant
untouched. -/
theorem MsInv_irrel {l : List GhIssue} {m : Milestone} {g : GhIssue}
    (hm : MsInv l m) (h : attrMs m.title g = false) :
    MsInv (l ++ [g]) m := by
  obtain ⟨h1, h2, h3, h4, h5, h6⟩ := hm
  refine ⟨?_, ?_, ?_, h4, ?_, ?_⟩
  · rw [countP_append_false h]; exact h1
  · rw [countP_append_false (by simp [h])]; exact h2
  · rw [openDays_append_false h]; exact h3
  · intro c hc
    exact CmpInv_irrel (h5 c hc) (attrCmp_eq_false_of_attrMs h)
  · intro n
    rw [countP_append_false (attrCmp_eq_false_of_attrMs h)]
    exact h6 n

/-- A fresh milestone bucket satisfies the invariant when nothing
processed so far was attributed to its title. -/
theorem MsInv_new {l : List GhIssue} {gm : GhMilestone}
    (h : l.countP (attrMs gm.title) = 0) :
    MsInv l (newMilestone gm) := by
  have hall : ∀ x ∈ l, attrMs gm.title x = false := fun x hx => by
    simpa using List.countP_eq_zero.1 h x hx
  refine ⟨h.symm, ?_, ?_, List.nodup_nil, ?_, ?_⟩
  · show 0 = l.countP fun g => attrMs gm.title g && isClosedB g
    symm
    exact List.countP_eq_zero.2 fun x hx => by simp [hall x hx]
  · show (0 : Int) = openDays (attrMs gm.title) l
    unfold openDays
    rw [List.filter_eq_nil_iff.2 fun x hx => by simp [hall x hx]]
    rfl
  · intro c hc
    simp [newMilestone] at hc
  · intro n
    show n ∈ ([] : List Component).map Component.name ↔ _
    simp only [List.map_nil, List.not_mem_nil, false_iff]
    have he : (newMilestone gm).title = gm.title := rfl
    rw [he]
    have hle := countP_attrCmp_le gm.title n l
    omega

/-- The bumped milestone bucket's invariant, for an attributed issue. -/
theorem MsInv_bump {l : List GhIssue} {m : Milestone} {g : GhIssue} {gm : GhMilestone}
    (hm : MsInv l m) (hms : g.milestone = some gm) (ht : gm.title = m.title) :
    MsInv (l ++ [g])
      (bumpMilestone g (cmpNameOf g.labels) (typeNameOf g.labels) (daysOf g.labels) m) := by
  obtain ⟨h1, h2, h3, h4, h5, h6⟩ := hm
  have hattr : attrMs m.title g = true := by
    rw [attrMs_of_some hms]
    simp [ht]
  set cn := cmpNameOf g.labels with hcn
  have htitle :
      (bumpMilestone g cn (typeNameOf g.labels) (daysOf g.labels) m).title = m.title :=
    bumpMilestone_title ..
  have hstats :
      (bumpMilestone g cn (typeNameOf g.labels) (daysOf g.labels) m).stats =
        { closed := if g.closedAt.isSome then m.stats.closed + 1 else m.stats.closed,
          total := m.stats.total + 1,
          days := if g.closedAt.isSome then m.stats.days else m.stats.days + daysOf g.labels } := by
    unfold bumpMilestone
    by_cases h : cn ≠ "" <;> simp [h]
  have hcomps :
      (bumpMilestone g cn (typeNameOf g.labels) (daysOf g.labels) m).components =
        if cn = "" then m.components
        else updComponents m.components cn g (typeNameOf g.labels) (daysOf g.labels) := by
    unfold bumpMilestone
    by_cases h : cn = "" <;> simp [h]
  refine ⟨?_, ?_, ?_, ?_, ?_, ?_⟩
  · rw [hstats, htitle, countP_append_true hattr]
    exact congrArg (· + 1) h1
  · rw [hstats, htitle]
    show (if g.closedAt.isSome then m.stats.closed + 1 else m.stats.closed) = _
    by_cases hcl : isClosedB g
    · rw [countP_append_true (by simp [hattr, hcl]), ← h2]
      simp only [isClosedB] at hcl
      simp [hcl]
    · rw [countP_append_false (by simp [hattr]; simp_all [isClosedB]), ← h2]
      simp only [isClosedB, Bool.not_eq_true] at hcl
      simp [hcl]
  · rw [hstats, htitle]
    show (if g.closedAt.isSome then m.stats.days else m.stats.days + daysOf g.labels) = _
    by_cases hcl : isClosedB g
    · rw [openDays_append_closed hcl, ← h3]
      simp only [isClosedB] at hcl
      simp [hcl]
    · rw [openDays_append_open hattr (by simpa using hcl), ← h3]
      simp only [isClosedB, Bool.not_eq_true] at hcl
      simp [hcl]
  · rw [hcomps]
    by_cases h : cn = ""
    · rw [if_pos h]; exact h4
    · rw [if_neg h]
      have hattrC : attrCmp m.title cn g = true := by
        simp [attrCmp, hattr, ← hcn, h]
      exact (updComponents_inv h4 h5 h6 (by rwa [← hcn])).1
  · rw [hcomps, htitle]
    by_cases h : cn = ""
    · rw [if_pos h]
      intro c hc
      have hc0 := h5 c hc
      refine CmpInv_irrel hc0 ?_
      have : c.name ≠ "" := hc0.1
      apply (fun hne => by
        simp only [attrCmp, Bool.and_eq_false_iff]
        left; right
        simpa [beq_eq_false_iff_ne] using hne : cn ≠ c.name → attrCmp m.title c.name g = false)
      rw [h]
      exact fun he => this he.symm
    · rw [if_neg h]
      exact (updComponents_inv h4 h5 h6 (by
        simp [attrCmp, hattr, ← hcn, h])).2.1
  · rw [hcomps, htitle]
    by_cases h : cn = ""
    · rw [if_pos h]
      intro n
      have hne : attrCmp m.title n g = false := by
        by_cases hn : n = ""
        · simp [attrCmp, hn]
        · simp only [attrCmp, Bool.and_eq_false_iff]
          left; right
          rw [← hcn, h]
          simpa [beq_eq_false_iff_ne] using fun he => hn he.symm
      rw [countP_append_false hne]
      exact h6 n
    · rw [if_neg h]
      exact fun n => (updComponents_inv h4 h5 h6 (by
        simp [attrCmp, hattr, ← hcn, h])).2.2 n

/-- One step of the issue loop preserves the global invariant. -/
theorem StInv_addIssue {l : List GhIssue} {st : List Milestone} {g : GhIssue}
    (h : StInv l st) : StInv (l ++ [g]) (addIssue st g) := by
  obtain ⟨h1, h2, h3⟩ := h
  rcases hms : g.milestone with _ | gm
  · -- no milestone reference: nothing changes
    have hstep : addIssue st g = st := by unfold addIssue; rw [hms]
    rw [hstep]
    refine ⟨h1, ?_, ?_⟩
    · intro m hm
      exact MsInv_irrel (h2 m hm) (attrMs_of_none hms m.title)
    · intro t
      rw [countP_append_false (attrMs_of_none hms t)]
      exact h3 t
  · have hattr_ne : ∀ t : String, t ≠ gm.title → attrMs t g = false := by
      intro t hne
      rw [attrMs_of_some hms]
      simpa [beq_eq_false_iff_ne] using fun he => hne he.symm
    by_cases hex : st.any (fun m => m.title == gm.title)
    · -- existing milestone bucket: map-update
      have hstep : addIssue st g =
          st.map (fun m => if m.title == gm.title then
            bumpMilestone g (cmpNameOf g.labels) (typeNameOf g.labels) (daysOf g.labels) m
          else m) := by
        unfold addIssue; rw [hms]; simp only [hex, if_true]
      have htitles : (addIssue st g).map Milestone.title = st.map Milestone.title := by
        rw [hstep, List.map_map]
        exact List.map_congr_left fun m _ => by
          by_cases hmt : m.title = gm.title <;> simp [hmt, bumpMilestone_title]
      have ht_mem : gm.title ∈ st.map Milestone.title := by
        simp only [List.any_eq_true] at hex
        obtain ⟨m, hm, hme⟩ := hex
        exact List.mem_map.2 ⟨m, hm, by simpa [beq_iff_eq] using hme⟩
      refine ⟨by rw [htitles]; exact h1, ?_, ?_⟩
      · intro m' hm'
        rw [hstep] at hm'
        obtain ⟨m, hm, rfl⟩ := List.mem_map.1 hm'
        by_cases hmt : m.title = gm.title
        · simp only [hmt, beq_self_eq_true, if_true]
          exact MsInv_bump (h2 m hm) hms hmt.symm
        · rw [if_neg (by simpa using hmt)]
          exact MsInv_irrel (h2 m hm) (hattr_ne m.title hmt)
      · intro t
        rw [htitles]
        by_cases hte : t = gm.title
        · subst hte
          rw [countP_append_true (by rw [attrMs_of_some hms]; simp)]
          exact ⟨fun _ => by omega, fun _ => ht_mem⟩
        · rw [countP_append_false (hattr_ne t hte)]
          exact h3 t
    · -- fresh milestone bucket appended
      have hstep : addIssue st g = st ++
          [bumpMilestone g (cmpNameOf g.labels) (typeNameOf g.labels) (daysOf g.labels)
            (newMilestone gm)] := by
        unfold addIssue; rw [hms]; simp only [hex, Bool.false_eq_true, if_false]
      have ht_not : gm.title ∉ st.map Milestone.title := by
        intro hmem
        apply hex
        obtain ⟨m, hm, hme⟩ := List.mem_map.1 hmem
        exact List.any_eq_true.2 ⟨m, hm, by simp [hme]⟩
      have hzero : l.countP (attrMs gm.title) = 0 := by
        by_contra hne0
        exact ht_not ((h3 gm.title).2 (Nat.pos_of_ne_zero hne0))
      have htitles : (addIssue st g).map Milestone.title =
          st.map Milestone.title ++ [gm.title] := by
        rw [hstep, List.map_append]
        have hb := bumpMilestone_title g (cmpNameOf g.labels) (typeNameOf g.labels)
          (daysOf g.labels) (newMilestone gm)
        simp only [List.map_cons, List.map_nil]
        rw [hb]
        rfl
      refine ⟨?_, ?_, ?_⟩
      · rw [htitles]
        simp [List.nodup_append, h1, List.disjoint_singleton, ht_not]
      · intro m' hm'
        rw [hstep, List.mem_append] at hm'
        rcases hm' with hm' | hm'
        · have hne : m'.title ≠ gm.title := by
            intro heq
            exact ht_not (heq ▸ List.mem_map_of_mem Milestone.title hm')
          exact MsInv_irrel (h2 m' hm') (hattr_ne m'.title hne)
        · rw [List.mem_singleton] at hm'
          subst hm'
          exact MsInv_bump (MsInv_new hzero) hms rfl
      · intro t
        rw [htitles, List.mem_append]
        by_cases hte : t = gm.title
        · subst hte
          rw [countP_append_true (by rw [attrMs_of_some hms]; simp)]
          exact ⟨fun _ => by omega, fun _ => by simp⟩
        · rw [countP_append_false (hattr_ne t hte)]
          simp only [List.mem_singleton, hte, or_false]
          exact h3 t

/-- The global invariant holds of the bucket state after the whole issue
loop. -/
theorem stInv_core (l : List GhIssue) : StInv l (parseIssuesCore l) := by
  induction l using List.reverseRecOn with
  | nil =>
    refine ⟨?_, ?_, ?_⟩
    · show (List.map Milestone.title []).Nodup
      simp
    · intro m hm
      simp only [parseIssuesCore, List.foldl_nil] at hm
      exact absurd hm (List.not_mem_nil m)
    · intro t
      show t ∈ List.map Milestone.title [] ↔ 0 < List.countP (attrMs t) []
      simp
  | append_singleton l g ih =>
    have hstep : parseIssuesCore (l ++ [g]) = addIssue (parseIssuesCore l) g := by
      unfold parseIssuesCore
      rw [List.foldl_append]
      rfl
    rw [hstep]
    exact StInv_addIssue ih

/-- The closed flag of the composite sort key: `0` for open, `1` for
closed. -/
def closedFlag (g : GhIssue) : Nat := if g.closedAt.isSome then 1 else 0

/-- The assigned flag of the composite sort key: `0` for unassigned, `1`
for assigned. -/
def assignedFlag (g : GhIssue) : Nat := if g.assignee.isSome then 1 else 0

/-- Strict lexicographic order on the three-level composite key
`(closedFlag, assignedFlag, number)`. -/
def keyLt (a b : GhIssue) : Prop :=
  closedFlag a < closedFlag b ∨
    (closedFlag a = closedFlag b ∧
      (assignedFlag a < assignedFlag b ∨
        (assignedFlag a = assignedFlag b ∧ a.number < b.number)))

/-- The source comparator decides exactly the strict lexicographic order
on the composite key. -/
theorem issueLess_iff_keyLt (a b : GhIssue) : issueLess a b = true ↔ keyLt a b := by
  unfold issueLess keyLt closedFlag assignedFlag
  rcases h1 : a.closedAt.isSome <;> rcases h2 : b.closedAt.isSome <;>
    rcases h3 : a.assignee.isSome <;> rcases h4 : b.assignee.isSome <;>
      simp [h1, h2, h3, h4]

theorem issueLess_false_iff (a b : GhIssue) :
    issueLess a b = false ↔ ¬ keyLt a b := by
  rw [← issueLess_iff_keyLt]
  simp

instance : IsTotal RIssue issuesLe :=
  ⟨fun a b => by
    unfold issuesLe
    rw [issueLess_false_iff, issueLess_false_iff]
    unfold keyLt
    omega⟩

instance : IsTrans RIssue issuesLe :=
  ⟨fun a b c hab hbc => by
    unfold issuesLe at *
    rw [issueLess_false_iff] at *
    unfold keyLt at *
    omega⟩

instance : IsTotal Component componentsLe :=
  ⟨fun a b =>
    (le_total a.name b.name).imp (fun h => not_lt.mpr h) fun h => not_lt.mpr h⟩

instance : IsTrans Component componentsLe :=
  ⟨fun _ _ _ hab hbc =>
    not_lt.mpr (le_trans (not_lt.1 hab) (not_lt.1 hbc))⟩

theorem sortIssues_perm (l : List RIssue) : List.Perm (sortIssues l) l :=
  List.perm_insertionSort issuesLe l

theorem sortIssues_sorted (l : List RIssue) : List.Sorted issuesLe (sortIssues l) :=
  List.sorted_insertionSort issuesLe l

theorem sortComponents_perm (l : List Component) : List.Perm (sortComponents l) l :=
  List.perm_insertionSort componentsLe l

theorem sortComponents_sorted (l : List Component) :
    List.Sorted componentsLe (sortComponents l) :=
  List.sorted_insertionSort componentsLe l

theorem finalizeMilestone_title (m : Milestone) :
    (finalizeMilestone m).title = m.title := rfl

theorem finalizeMilestone_stats (m : Milestone) :
    (finalizeMilestone m).stats = m.stats := rfl

theorem parseIssues_map_title (input : List GhIssue) :
    (parseIssues input).map Milestone.title =
      (parseIssuesCore input).map Milestone.title := by
  unfold parseIssues
  rw [List.map_map]
  exact List.map_congr_left fun m _ => finalizeMilestone_title m

/-- The components of a finalized milestone are the sorted-issue versions
of the original components, in some order. -/
theorem mem_finalize_components {m : Milestone} {c : Component}
    (hc : c ∈ (finalizeMilestone m).components) :
    ∃ c₀ ∈ m.components, c = { c₀ with issues := sortIssues c₀.issues } := by
  unfold finalizeMilestone at hc
  simp only at hc
  have := (sortComponents_perm _).mem_iff.1 hc
  obtain ⟨c₀, hc₀, rfl⟩ := List.mem_map.1 this
  exact ⟨c₀, hc₀, rfl⟩

theorem finalize_components_names (m : Milestone) :
    List.Perm ((finalizeMilestone m).components.map Component.name)
      (m.components.map Component.name) := by
  unfold finalizeMilestone
  refine ((sortComponents_perm _).map Component.name).trans ?_
  rw [List.map_map]
  have he : (Component.name ∘ fun c =>
      ({ c with issues := sortIssues c.issues } : Component)) = Component.name := rfl
  rw [he]

/-- Everything the aggregation invariants yield about the final, sorted
result of `parseIssues`. -/
theorem parseIssues_inv (input : List GhIssue) :
    ((parseIssues input).map Milestone.title).Nodup ∧
    (∀ t : String,
      t ∈ (parseIssues input).map Milestone.title ↔ 0 < input.countP (attrMs t)) ∧
    ∀ m ∈ parseIssues input,
      m.stats.total = input.countP (attrMs m.title) ∧
      m.stats.closed = input.countP (fun g => attrMs m.title g && isClosedB g) ∧
      m.stats.days = openDays (attrMs m.title) input ∧
      (m.components.map Component.name).Nodup ∧
      (∀ n : String,
        n ∈ m.components.map Component.name ↔ 0 < input.countP (attrCmp m.title n)) ∧
      List.Sorted componentsLe m.components ∧
      ∀ c ∈ m.components,
        c.name ≠ "" ∧
        c.stats.total = input.countP (attrCmp m.title c.name) ∧
        c.stats.closed = input.countP (fun g => attrCmp m.title c.name g && isClosedB g) ∧
        c.stats.days = openDays (attrCmp m.title c.name) input ∧
        List.Perm c.issues ((input.filter (attrCmp m.title c.name)).map mkRIssue) ∧
        List.Sorted issuesLe c.issues := by
  obtain ⟨h1, h2, h3⟩ := stInv_core input
  refine ⟨?_, ?_, ?_⟩
  · rw [parseIssues_map_title]; exact h1
  · intro t
    rw [parseIssues_map_title]; exact h3 t
  · intro m' hm'
    obtain ⟨m, hm, rfl⟩ := List.mem_map.1 hm'
    obtain ⟨g1, g2, g3, g4, g5, g6⟩ := h2 m hm
    rw [finalizeMilestone_title, finalizeMilestone_stats]
    refine ⟨g1, g2, g3, ?_, ?_, ?_, ?_⟩
    · exact ((finalize_components_names m).nodup_iff).2 g4
    · intro n
      rw [(finalize_components_names m).mem_iff]
      exact g6 n
    · exact sortComponents_sorted _
    · intro c hc
      obtain ⟨c₀, hc₀, rfl⟩ := mem_finalize_components hc
      obtain ⟨k0, k1, k2, k3, k4⟩ := g5 c₀ hc₀
      exact ⟨k0, k1, k2, k3, (sortIssues_perm _).trans (k4 ▸ List.Perm.refl _),
        sortIssues_sorted _⟩

theorem parseIssuesCore_append (l : List GhIssue) (g : GhIssue) :
    parseIssuesCore (l ++ [g]) = addIssue (parseIssuesCore l) g := by
  unfold parseIssuesCore
  rw [List.foldl_append]
  rfl

/-- Issues without a milestone reference are invisible to the whole
aggregation. -/
theorem parseIssuesCore_filter_some (l : List GhIssue) :
    parseIssuesCore (l.filter fun g => g.milestone.isSome) = parseIssuesCore l := by
  induction l using List.reverseRecOn with
  | nil => rfl
  | append_singleton l g ih =>
    rw [List.filter_append, parseIssuesCore_append]
    rcases hms : g.milestone with _ | gm
    · have : [g].filter (fun g => g.milestone.isSome) = [] := by
        simp [List.filter, hms]
      rw [this, List.append_nil, ih]
      unfold addIssue
      rw [hms]
    · have : [g].filter (fun g => g.milestone.isSome) = [g] := by
        simp [List.filter, hms]
      rw [this, parseIssuesCore_append, ih]

theorem parseIssues_filter_some (l : List GhIssue) :
    parseIssues (l.filter fun g => g.milestone.isSome) = parseIssues l := by
  unfold parseIssues
  rw [parseIssuesCore_filter_some]

/-- A count splits over any second Boolean predicate. -/
theorem countP_split (p q : GhIssue → Bool) (l : List GhIssue) :
    l.countP p =
      l.countP (fun g => p g && q g) + l.countP (fun g => p g && !q g) := by
  induction l with
  | nil => rfl
  | cons a l ih =>
    rcases hp : p a <;> rcases hq : q a <;>
      simp [List.countP_cons, hp, hq, ih] <;> omega

/-- A sample issue set used to instantiate the verified statements:
an open unassigned issue and a closed one, both in milestone `"v1"`,
component `"api"`. -/
def w1 : GhIssue :=
  ⟨1, "t1", "u1", some ⟨"v1", "mu"⟩, ["component: api"], none, none⟩

def w2 : GhIssue :=
  ⟨2, "t2", "u2", some ⟨"v1", "mu"⟩, ["component: api"], none, some "2020-01-01"⟩

def wInput : List GhIssue := [w1, w2]

def wMs : Milestone := (parseIssues wInput).headD (newMilestone ⟨"", ""⟩)

def wCmp : Component := wMs.components.headD (newComponent "")

/-- C3: for every milestone and component produced by the aggregation,
`closed + open = total` where `open` counts the attributed issues with no
closed timestamp; `total` and `closed` count exactly the attributed
(resp. attributed-and-closed) input issues; a component's issue list has
`total` entries; and input issues lacking a milestone reference
contribute to none of it. -/
theorem c3_counter_invariants (input : List GhIssue) :
    (∀ m ∈ parseIssues input,
      (m.stats.total = input.countP (attrMs m.title) ∧
       m.stats.closed = input.countP (fun g => attrMs m.title g && isClosedB g) ∧
       m.stats.closed + input.countP (fun g => attrMs m.title g && !isClosedB g) =
         m.stats.total) ∧
      ∀ c ∈ m.components,
        c.stats.total = input.countP (attrCmp m.title c.name) ∧
        c.stats.closed =
          input.countP (fun g => attrCmp m.title c.name g && isClosedB g) ∧
        c.stats.closed +
            input.countP (fun g => attrCmp m.title c.name g && !isClosedB g) =
          c.stats.total ∧
        c.issues.length = c.stats.total) ∧
    parseIssues (input.filter fun g => g.milestone.isSome) = parseIssues input := by
  obtain ⟨-, -, h3⟩ := parseIssues_inv input
  refine ⟨?_, parseIssues_filter_some input⟩
  intro m hm
  obtain ⟨g1, g2, -, -, -, -, g7⟩ := h3 m hm
  refine ⟨⟨g1, g2, ?_⟩, ?_⟩
  · rw [g1, g2, countP_split (attrMs m.title) isClosedB]
  · intro c hc
    obtain ⟨-, k1, k2, -, k4, -⟩ := g7 c hc
    refine ⟨k1, k2, ?_, ?_⟩
    · rw [k1, k2, countP_split (attrCmp m.title c.name) isClosedB]
    · rw [k4.length_eq, List.length_map, k1, List.countP_eq_length_filter]

theorem c3_witness :
    wCmp.issues.length = wCmp.stats.total ∧
    wMs.stats.closed + wInput.countP (fun g => attrMs wMs.title g && !isClosedB g) =
      wMs.stats.total :=
  ⟨(((c3_counter_invariants wInput).1 wMs (by decide)).2 wCmp (by decide)).2.2.2,
   ((c3_counter_invariants wInput).1 wMs (by decide)).1.2.2⟩

/-- C7: in the richer variant, every milestone's and component's `Days`
counter is exactly the sum of day-estimates of the *open* issues
attributed to it; closed issues' estimates are never added. -/
theorem c7_open_day_sums (input : List GhIssue) :
    ∀ m ∈ parseIssues input,
      m.stats.days = openDays (attrMs m.title) input ∧
      ∀ c ∈ m.components, c.stats.days = openDays (attrCmp m.title c.name) input := by
  obtain ⟨-, -, h3⟩ := parseIssues_inv input
  intro m hm
  obtain ⟨-, -, g3, -, -, -, g7⟩ := h3 m hm
  exact ⟨g3, fun c hc => (g7 c hc).2.2.2.1⟩

theorem c7_witness :
    wMs.stats.days = openDays (attrMs wMs.title) wInput ∧
    wCmp.stats.days = openDays (attrCmp wMs.title wCmp.name) wInput :=
  ⟨(c7_open_day_sums wInput wMs (by decide)).1,
   (c7_open_day_sums wInput wMs (by decide)).2 wCmp (by decide)⟩

/-- C4: in every aggregated milestone the component list is strictly
sorted by name, ascending — in particular no two components share a
name. -/
theorem c4_components_sorted (input : List GhIssue) :
    ∀ m ∈ parseIssues input,
      m.components.Pairwise (fun a b => a.name < b.name) := by
  obtain ⟨-, -, h3⟩ := parseIssues_inv input
  intro m hm
  obtain ⟨-, -, -, g4, -, g6, -⟩ := h3 m hm
  have hne : m.components.Pairwise (fun a b => a.name ≠ b.name) :=
    (List.pairwise_map).1 g4
  have hle : m.components.Pairwise componentsLe := g6
  exact (hle.and hne).imp fun h => lt_of_le_of_ne (not_lt.1 h.1) h.2

theorem c4_witness : wMs.components.Pairwise (fun a b => a.name < b.name) :=
  c4_components_sorted wInput wMs (by decide)

/-- An issue carrying two `"component: "` labels, in milestone `"m"`. -/
def cexMulti : GhIssue :=
  ⟨1, "t", "u", some ⟨"m", "mu"⟩, ["component: a", "component: b"], none, none⟩

/-- C1 counterexample: in `main.go`'s `printIssues`, an issue with labels
`"component: a"` and `"component: b"` is appended to *both* components'
lists of its milestone, so it does not appear in at most one component's
issue list. -/
theorem c1_counterexample :
    ¬ ∀ p ∈ printIssuesParse [cexMulti],
        (p.2.comps.countP fun cp => decide (cexMulti ∈ cp.2)) ≤ 1 := by
  decide

/-- C1 (amended): in the variants that pick a single component
(`parseIssues` of the richer sources), an issue whose label scan ends
with the nonempty component name `c` appears exactly in the component
named `c` of its milestone — as many times as the issue occurs in the
input — and in no other component's list.  (In `main.go` and the
`part_001` variant the issue is instead appended once per
`"component: "` label, the behavior refuted by the counterexample.) -/
theorem c1_last_component_wins (input : List GhIssue) (g : GhIssue) (t c : String)
    (hms : g.milestone.map GhMilestone.title = some t)
    (hcn : cmpNameOf g.labels = c) (hne : c ≠ "") :
    ∀ m ∈ parseIssues input, ∀ cp ∈ m.components,
      cp.issues.countP (fun ri => ri.issue == g) =
        if m.title = t ∧ cp.name = c then input.countP (fun x => x == g) else 0 := by
  obtain ⟨gm, hgm, hgt⟩ : ∃ gm, g.milestone = some gm ∧ gm.title = t := by
    rcases hg : g.milestone with _ | gm
    · rw [hg] at hms; simp at hms
    · rw [hg] at hms; simp at hms; exact ⟨gm, rfl, hms⟩
  obtain ⟨-, -, h3⟩ := parseIssues_inv input
  intro m hm cp hcp
  obtain ⟨-, -, -, -, k4, -⟩ := (h3 m hm).2.2.2.2.2.2 cp hcp
  rw [k4.countP_eq, List.countP_map]
  rw [show ((fun ri : RIssue => ri.issue == g) ∘ mkRIssue) = fun x => x == g from rfl,
    List.countP_filter]
  by_cases hcase : m.title = t ∧ cp.name = c
  · rw [if_pos hcase]
    apply List.countP_congr
    intro x hx
    rcases hxg : (x == g : Bool)
    · simp [hxg]
    · have hx_eq : x = g := by simpa using hxg
      subst hx_eq
      have hattr : attrCmp m.title cp.name x = true := by
        have h1 : attrMs m.title x = true := by
          rw [attrMs_of_some hgm]
          simp [hgt, hcase.1]
        simp [attrCmp, h1, hcn, hcase.2, hne]
      simp [hattr]
  · rw [if_neg hcase]
    rw [List.countP_eq_zero]
    intro x hx
    rcases hxg : (x == g : Bool)
    · simp [hxg]
    · have hx_eq : x = g := by simpa using hxg
      subst hx_eq
      rcases not_and_or.1 hcase with hcC | hcC
      · have h1 : attrMs m.title x = false := by
          rw [attrMs_of_some hgm]
          simpa [beq_eq_false_iff_ne, hgt] using fun he => hcC he.symm
        simp [attrCmp_eq_false_of_attrMs h1]
      · have h1 : (cmpNameOf x.labels == cp.name) = false := by
          simpa [hcn, beq_eq_false_iff_ne] using fun he => hcC he.symm
        simp [attrCmp, h1]

theorem c1_witness :
    wCmp.issues.countP (fun ri => ri.issue == w1) =
      if wMs.title = "v1" ∧ wCmp.name = "api" then wInput.countP (fun x => x == w1)
      else 0 :=
  c1_last_component_wins wInput w1 "v1" "api" (by decide) (by decide) (by decide)
    wMs (by decide) wCmp (by decide)

/-- In a list sorted by the source comparator whose issue numbers are
pairwise distinct, position order coincides with strict key order. -/
theorem sorted_pos_iff {l : List RIssue}
    (hs : List.Sorted issuesLe l)
    (hn : (l.map fun ri => ri.issue.number).Nodup) :
    ∀ (i j : Nat) (a b : RIssue), l[i]? = some a → l[j]? = some b →
      (i < j ↔ keyLt a.issue b.issue) := by
  have hget : ∀ (i j : Nat), ∀ (hi : i < l.length) (hj : j < l.length), i < j →
      issuesLe (l.get ⟨i, hi⟩) (l.get ⟨j, hj⟩) := by
    intro i j hi hj hij
    exact List.pairwise_iff_getElem.1 hs i j hi hj hij
  have hnum : ∀ (i j : Nat), ∀ (hi : i < l.length) (hj : j < l.length), i ≠ j →
      (l.get ⟨i, hi⟩).issue.number ≠ (l.get ⟨j, hj⟩).issue.number := by
    intro i j hi hj hij heq
    have hi' : i < (l.map fun ri => ri.issue.number).length := by simpa using hi
    have hj' : j < (l.map fun ri => ri.issue.number).length := by simpa using hj
    have hinjf := List.nodup_iff_injective_getElem.1 hn
    have hinj : (⟨i, hi'⟩ : Fin (l.map fun ri => ri.issue.number).length) = ⟨j, hj'⟩ :=
      hinjf (by simpa using heq)
    exact hij (congrArg Fin.val hinj)
  intro i j a b ha hb
  obtain ⟨hi, rfl⟩ := List.getElem?_eq_some_iff.1 ha
  obtain ⟨hj, rfl⟩ := List.getElem?_eq_some_iff.1 hb
  constructor
  · intro hij
    have h1 := hget i j hi hj hij
    have h2 := hnum i j hi hj (Nat.ne_of_lt hij)
    unfold issuesLe at h1
    rw [issueLess_false_iff] at h1
    show keyLt (l.get ⟨i, hi⟩).issue (l.get ⟨j, hj⟩).issue
    unfold keyLt at *
    omega
  · intro hk
    by_contra hij
    rcases Nat.lt_or_eq_of_le (Nat.le_of_not_lt hij) with hlt | heq
    · have h1 := hget j i hj hi hlt
      unfold issuesLe at h1
      rw [issueLess_false_iff] at h1
      exact h1 hk
    · subst heq
      unfold keyLt at hk
      omega

/-- The three sample issues of the spec's sorting example: id 5 open
unassigned, id 2 open assigned, id 9 closed unassigned, all in one
milestone and component. -/
def c2a : GhIssue := ⟨5, "a", "ua", some ⟨"v1.0", "mu"⟩, ["component: x"], none, none⟩

def c2b : GhIssue :=
  ⟨2, "b", "ub", some ⟨"v1.0", "mu"⟩, ["component: x"], some ⟨"ah", "av"⟩, none⟩

def c2c : GhIssue := ⟨9, "c", "uc", some ⟨"v1.0", "mu"⟩, ["component: x"], none, some "2020"⟩

def c2Input : List GhIssue := [c2a, c2b, c2c]

/-- C2: within every aggregated component's sorted issue list (under the
ambient assumption that issue identifiers are pairwise distinct), an
issue precedes another exactly when its composite key
`(closedFlag, assignedFlag, number)` is lexicographically smaller; and
the spec's example `{5 open unassigned, 2 open assigned, 9 closed}`
sorts to `[5, 2, 9]`. -/
theorem c2_sort_order (input : List GhIssue) :
    ((input.map GhIssue.number).Nodup →
      ∀ m ∈ parseIssues input, ∀ cp ∈ m.components,
        ∀ (i j : Nat) (a b : RIssue),
          cp.issues[i]? = some a → cp.issues[j]? = some b →
            (i < j ↔ keyLt a.issue b.issue)) ∧
    (parseIssues c2Input).map
        (fun m => m.components.map fun cp => cp.issues.map fun ri => ri.issue.number) =
      [[[5, 2, 9]]] := by
  constructor
  · intro hnd m hm cp hcp
    obtain ⟨-, -, h3⟩ := parseIssues_inv input
    obtain ⟨-, -, -, -, k4, k5⟩ := (h3 m hm).2.2.2.2.2.2 cp hcp
    apply sorted_pos_iff k5
    have hperm : List.Perm (cp.issues.map fun ri => ri.issue.number)
        ((input.filter (attrCmp m.title cp.name)).map GhIssue.number) := by
      refine (k4.map fun ri => ri.issue.number).trans ?_
      rw [List.map_map]
      exact List.Perm.refl _
    rw [hperm.nodup_iff]
    exact ((List.filter_sublist input).map GhIssue.number).nodup hnd
  · decide

def c2Ms : Milestone := (parseIssues c2Input).headD (newMilestone ⟨"", ""⟩)

def c2Cmp : Component := c2Ms.components.headD (newComponent "")

def c2r0 : RIssue := (c2Cmp.issues[0]?).getD ⟨c2a, "", 0⟩

def c2r1 : RIssue := (c2Cmp.issues[1]?).getD ⟨c2a, "", 0⟩

theorem c2_witness : 0 < 1 ↔ keyLt c2r0.issue c2r1.issue :=
  (c2_sort_order c2Input).1 (by decide) c2Ms (by decide) c2Cmp (by decide) 0 1
    c2r0 c2r1 (by decide) (by decide)

theorem selectMilestones_titles (msMap : List Milestone) (names : List String) :
    (selectMilestones msMap names).map Milestone.title =
      names.filter fun n => msMap.any fun m => m.title == n := by
  induction names with
  | nil => rfl
  | cons n rest ih =>
    rcases hf : msMap.find? (fun m => m.title == n) with _ | m
    · have hany : (msMap.any fun m => m.title == n) = false :=
        List.any_eq_false.2 fun x hx => by simpa using List.find?_eq_none.1 hf x hx
      simp only [selectMilestones, hf, List.filter_cons, hany, Bool.false_eq_true,
        if_false]
      exact ih
    · have hmt := List.find?_some hf
      have hany : (msMap.any fun m => m.title == n) = true :=
        List.any_eq_true.2 ⟨m, List.mem_of_find?_eq_some hf, hmt⟩
      simp only [selectMilestones, hf, List.filter_cons, hany, if_true, List.map_cons]
      rw [ih]
      congr 1
      exact beq_iff_eq.1 hmt

/-- C5: the rendered report contains exactly the requested milestone
names that occur among the aggregated data's titles, in the caller's
requested order (duplicates included); absent names are silently
dropped.  A title occurs in the data exactly when some input issue is
attributed to it. -/
theorem c5_requested_selection (input : List GhIssue) (names : List String) :
    (selectMilestones (parseIssues input) names).map Milestone.title =
      names.filter (fun n => (parseIssues input).any fun m => m.title == n) ∧
    ∀ n : String,
      ((parseIssues input).any fun m => m.title == n) = true ↔
        0 < input.countP (attrMs n) := by
  refine ⟨selectMilestones_titles _ names, ?_⟩
  intro n
  obtain ⟨-, h2, -⟩ := parseIssues_inv input
  rw [← h2 n]
  constructor
  · intro h
    obtain ⟨m, hm, hmt⟩ := List.any_eq_true.1 h
    exact List.mem_map.2 ⟨m, hm, beq_iff_eq.1 hmt⟩
  · intro h
    obtain ⟨m, hm, hmt⟩ := List.mem_map.1 h
    exact List.any_eq_true.2 ⟨m, hm, beq_iff_eq.2 hmt⟩

theorem scanStep_days (labels : List String) :
    ∀ acc : String × String × Int,
      (labels.foldl scanStep acc).2.2 = acc.2.2 + (labels.map estimDelta).sum := by
  induction labels with
  | nil => intro acc; simp
  | cons l rest ih =>
    intro acc
    rw [List.foldl_cons, ih, List.map_cons, List.sum_cons]
    show acc.2.2 + estimDelta l + _ = _
    ring

/-- The day estimate of an issue is the sum of the per-label estimate
contributions. -/
theorem daysOf_eq_sum (labels : List String) :
    daysOf labels = (labels.map estimDelta).sum := by
  unfold daysOf scanLabels
  rw [scanStep_days]
  show 0 + _ = _
  ring

/-- C6: estimate parsing — `"estimate: 3d"` is 3 days, `"estimate: 2w"`
is 10 days, `"estimate: bogus"` is 0, an issue with no estimate label is
0, an unrecognized unit suffix contributes 0, and a non-positive or
malformed numeric part contributes 0; in general the estimate is the sum
of the per-label contributions. -/
theorem c6_estimate_parsing :
    daysOf ["estimate: 3d"] = 3 ∧
    daysOf ["estimate: 2w"] = 10 ∧
    daysOf ["estimate: bogus"] = 0 ∧
    (∀ labels : List String,
      (∀ l ∈ labels, startsWithStr "estimate: " l = false) → daysOf labels = 0) ∧
    (∀ lbl : String, startsWithStr "estimate: " lbl = true →
      atoi (dropRightStr (trimStr (dropStr lbl 10)) 1) ≤ 0 → estimDelta lbl = 0) ∧
    (∀ lbl : String, startsWithStr "estimate: " lbl = true →
      endsWithStr (trimStr (dropStr lbl 10)) "d" = false →
      endsWithStr (trimStr (dropStr lbl 10)) "w" = false → estimDelta lbl = 0) ∧
    (∀ labels : List String, daysOf labels = (labels.map estimDelta).sum) := by
  refine ⟨by decide, by decide, by decide, ?_, ?_, ?_, daysOf_eq_sum⟩
  · intro labels h
    rw [daysOf_eq_sum]
    apply List.sum_eq_zero
    intro x hx
    obtain ⟨l, hl, rfl⟩ := List.mem_map.1 hx
    unfold estimDelta
    rw [if_neg (by simp [h l hl])]
  · intro lbl h1 h2
    unfold estimDelta
    rw [if_pos h1]
    by_cases hd : endsWithStr (trimStr (dropStr lbl 10)) "d"
    · simp only [hd, if_true]
      rw [if_pos (by omega : (1 : Int) > 0), if_neg (by omega)]
    · by_cases hw : endsWithStr (trimStr (dropStr lbl 10)) "w"
      · simp only [hd, hw, Bool.false_eq_true, if_false, if_true]
        rw [if_pos (by omega : (5 : Int) > 0), if_neg (by omega)]
      · simp [hd, hw]
  · intro lbl h1 hd hw
    unfold estimDelta
    rw [if_pos h1]
    simp [hd, hw]

theorem c6_witness : daysOf ["bugfix"] = 0 :=
  c6_estimate_parsing.2.2.2.1 ["bugfix"] (by decide)

theorem decodeLabels_encode (l : List String) :
    decodeLabels (.jarr (l.map JVal.jstr)) = some l := by
  show decodeStrList (l.map JVal.jstr) = some l
  induction l with
  | nil => rfl
  | cons a l ih => simp [decodeStrList, ih, asStr]

theorem decodeIssue_encode (g : GhIssue) : decodeIssue (encodeIssue g) = some g := by
  rcases g with ⟨n, t, u, ms, lbls, asg, ca⟩
  rcases ms with _ | ⟨mt, mh⟩ <;> rcases asg with _ | ⟨ah, av⟩ <;> rcases ca with _ | ct <;>
    simp [decodeIssue, encodeIssue, jlookup, decodeOpt, decodeUser, decodeMs,
      decodeLabels_encode, encodeUser, encodeMs, asStr, asNum, List.find?]

theorem decodeIssues_encode (issues : List GhIssue) :
    decodeIssues (encodeIssues issues) = some issues := by
  show decodeIssueList (issues.map encodeIssue) = some issues
  induction issues with
  | nil => rfl
  | cons g l ih => simp [decodeIssueList, decodeIssue_encode, ih]

/-- C8: loading the cache file written for any issue list at any path
returns exactly that list — every field of every issue survives the
round trip. -/
theorem c8_cache_roundtrip (st : Store) (path : String) (issues : List GhIssue) :
    readIssuesModel (writeIssuesModel st path issues) path = some issues := by
  unfold readIssuesModel writeIssuesModel
  simp [decodeIssues_encode]

theorem splitFirst_eq_none_iff (cs : List Char) :
    splitFirst cs = none ↔ '/' ∉ cs := by
  induction cs with
  | nil => simp [splitFirst]
  | cons c cs ih =>
    by_cases hc : c = '/'
    · simp [splitFirst, hc]
    · simp [splitFirst, hc, ih, Ne.symm hc]

/-- C9: with an empty from-file flag and a repo flag containing no `"/"`,
the split yields a single part, the second index is out of bounds, and
the run crashes on the unguarded access instead of returning a clean
input error. -/
theorem c9_missing_separator_crash (repo : List Char) (h : '/' ∉ repo) :
    (splitN2 repo).length = 1 ∧ (splitN2 repo).get? 1 = none ∧
    runRepoSelect "" repo = RunOutcome.crash ∧
    runRepoSelect "" repo ≠ RunOutcome.inputError := by
  have hs : splitFirst repo = none := (splitFirst_eq_none_iff repo).2 h
  have h2 : splitN2 repo = [repo] := by unfold splitN2; rw [hs]
  have h3 : runRepoSelect "" repo = RunOutcome.crash := by
    unfold runRepoSelect
    rw [if_neg (by simp), h2]
    rfl
  exact ⟨by rw [h2]; rfl, by rw [h2]; rfl, h3, by rw [h3]; simp⟩

def c9repo : List Char := "norepo".data

theorem c9_witness :
    (splitN2 c9repo).length = 1 ∧ (splitN2 c9repo).get? 1 = none ∧
    runRepoSelect "" c9repo = RunOutcome.crash ∧
    runRepoSelect "" c9repo ≠ RunOutcome.inputError :=
  c9_missing_separator_crash c9repo (by decide)

/-- C10: the cache file written after rendering is the serialization of
exactly the flat issue list as fetched or loaded — it decodes back to
that list, and its content does not depend on the aggregation or on the
requested milestone names. -/
theorem c10_cache_independent_of_aggregation (issues : List GhIssue)
    (names : List String) (path : String) (st : Store) (h : path ≠ "") :
    (runPipe issues names path st).2 path = some (encodeIssues issues) ∧
    readIssuesModel (runPipe issues names path st).2 path = some issues ∧
    (runPipe issues names path st).2 = (runPipe issues [] path st).2 := by
  unfold runPipe
  simp only [if_pos h]
  refine ⟨?_, ?_, trivial⟩
  · simp [writeIssuesModel]
  · simp [readIssuesModel, writeIssuesModel, decodeIssues_encode]

def c10Store : Store := fun _ => none

theorem c10_witness :
    (runPipe wInput ["v1"] "cache.json" c10Store).2 "cache.json" =
        some (encodeIssues wInput) ∧
    readIssuesModel (runPipe wInput ["v1"] "cache.json" c10Store).2 "cache.json" =
        some wInput ∧
    (runPipe wInput ["v1"] "cache.json" c10Store).2 =
      (runPipe wInput [] "cache.json" c10Store).2 :=
  c10_cache_independent_of_aggregation wInput ["v1"] "cache.json" c10Store (by decide)
